import Mathlib

/-!
# Verification of the Vistapool/Hayward pool-controller integration

Shallow embedding of the repository's three source modules:

* `HaywardApi` (session lifecycle: `authenticate`, `refreshToken`,
  `ensureValidToken`, `fetchPoolData`),
* `FirestoreParser` (`extractValue`, `parseFields`, `flattenObject`),
* `drivers/aquascenic/device` (capability mapping tables, `pollData` per-mapping
  processing, `checkAndFireTrigger`, `registerSettableListener`).

JavaScript runtime values reaching this code are modelled by `JSVal`:
numbers are rationals (`ℚ`, with a separate `nan` constructor for NaN),
`undefined` and `null` are distinct constructors, and objects are
association lists in insertion order (the iteration order of `Object.entries`).
-/

namespace Vistapool

/-- A JavaScript runtime value as used by the parser and the device driver.
Objects are association lists in key-insertion order; `nan` models the
floating-point NaN produced by a failed `parseInt`/`Number` coercion. -/
inductive JSVal where
  | undefined
  | null
  | nan
  | num (q : ℚ)
  | str (s : String)
  | bool (b : Bool)
  | arr (xs : List JSVal)
  | obj (fields : List (String × JSVal))

/-- Look a key up in an association list (first match, like a JS object). -/
def lookupKey (m : List (String × JSVal)) (k : String) : Option JSVal :=
  match m with
  | [] => none
  | (k', v) :: rest => if k' = k then some v else lookupKey rest k

/-- JS property read `m[k]`: an absent key reads as `undefined`. -/
def lookupJS (m : List (String × JSVal)) (k : String) : JSVal :=
  (lookupKey m k).getD .undefined

/-- JS assignment `m[k] = v` on an object: overwrites the value in place if the
key exists, otherwise appends the key at the end (JS insertion-order rule). -/
def recordSet (m : List (String × JSVal)) (k : String) (v : JSVal) :
    List (String × JSVal) :=
  match m with
  | [] => [(k, v)]
  | (k', v') :: rest =>
    if k' = k then (k, v) :: rest else (k', v') :: recordSet rest k v

/-- `Object.assign(target, src)`: assign every entry of `src` into `target`
in order. -/
def objAssign (target src : List (String × JSVal)) : List (String × JSVal) :=
  src.foldl (fun a e => recordSet a e.1 e.2) target

/-- JS strict equality `a === b` as it behaves at this code's call site
(`checkAndFireTrigger` compares a freshly decoded value against the stored
one): structural on primitives, `false` for `NaN` against anything, and
`false` between container values because a freshly built array/object is
never reference-identical to a stored one. -/
def jsStrictEq : JSVal → JSVal → Bool
  | .undefined, .undefined => true
  | .null, .null => true
  | .num a, .num b => a == b
  | .str a, .str b => a == b
  | .bool a, .bool b => a == b
  | _, _ => false

/-- JS truthiness of a `JSVal` (`v ? a : b`). -/
def truthy : JSVal → Bool
  | .undefined => false
  | .null => false
  | .nan => false
  | .num q => q ≠ 0
  | .str s => s ≠ ""
  | .bool b => b
  | .arr _ => true
  | .obj _ => true

/-! ## Firestore typed-value wire format and `FirestoreParser.extractValue` -/

/-- A Firestore typed-value wrapper as it arrives at runtime.  The eight
recognized variants mirror the `FirestoreValue` union of `types.ts`;
`integerValue` carries the raw string (decoded with `parseInt`), the
`values` field of `arrayValue` is optional because the REST wire format
omits it for an empty array, and `other` stands for a runtime object whose
tag is none of the eight recognized variants. -/
inductive FirestoreValue where
  | stringValue (s : String)
  | integerValue (s : String)
  | doubleValue (q : ℚ)
  | booleanValue (b : Bool)
  | nullValue
  | timestampValue (s : String)
  | arrayValue (values : Option (List FirestoreValue))
  | mapValue (fields : List (String × FirestoreValue))
  | other

/-- Numeric value of a run of decimal digit characters. -/
def digitsToNat (ds : List Char) : Nat :=
  ds.foldl (fun a c => a * 10 + (c.toNat - 48)) 0

/-- JS `parseInt(s, 10)`: skip leading whitespace, read an optional sign and
then a maximal run of decimal digits; `NaN` when no digit is found. -/
def jsParseInt (s : String) : JSVal :=
  let l := s.data.dropWhile Char.isWhitespace
  let signed : Bool × List Char :=
    match l with
    | '-' :: rest => (true, rest)
    | '+' :: rest => (false, rest)
    | _ => (false, l)
  let ds := signed.2.takeWhile Char.isDigit
  if ds.isEmpty then .nan
  else .num (if signed.1 then -(digitsToNat ds : ℚ) else (digitsToNat ds : ℚ))

/-- `FirestoreParser.extractValue`: decode a typed-value wrapper into a plain
JS value.  `parseFields` (mapping `extractValue` over a fields object) is
inlined at the `mapValue` case and recovered below as `parseFields`. -/
def extractValue : FirestoreValue → JSVal
  | .stringValue s => .str s
  | .integerValue s => jsParseInt s
  | .doubleValue q => .num q
  | .booleanValue b => .bool b
  | .nullValue => .null
  | .timestampValue s => .str s
  | .arrayValue vs => .arr ((vs.getD []).attach.map fun x => extractValue x.1)
  | .mapValue fields => .obj (fields.attach.map fun x => (x.1.1, extractValue x.1.2))
  | .other => .undefined
decreasing_by
  · have h1 : sizeOf x.1 < sizeOf (vs.getD []) := List.sizeOf_lt_of_mem x.2
    have h2 : sizeOf (vs.getD []) ≤ sizeOf vs := by
      cases vs with
      | none => simp [Option.getD]
      | some l => simp [Option.getD]
    simp only [FirestoreValue.arrayValue.sizeOf_spec]
    omega
  · have h1 : sizeOf x.1 < sizeOf fields := List.sizeOf_lt_of_mem x.2
    have h2 : sizeOf x.1.2 < sizeOf x.1 := by
      obtain ⟨⟨k, v⟩, hx⟩ := x
      simp only [Prod.mk.sizeOf_spec]
      omega
    simp only [FirestoreValue.mapValue.sizeOf_spec]
    omega

/-- `FirestoreParser.parseFields`: decode every field of a Firestore fields
object. -/
def parseFields (fields : List (String × FirestoreValue)) :
    List (String × JSVal) :=
  fields.map fun e => (e.1, extractValue e.2)

theorem extractValue_mapValue (fields : List (String × FirestoreValue)) :
    extractValue (.mapValue fields) = .obj (parseFields fields) := by
  simp [extractValue, parseFields, List.attach, List.attachWith,
    List.map_pmap, List.pmap_eq_map]

/-! ## `FirestoreParser.flattenObject` and the spec's unflatten -/

/-- The flat-key builder of `flattenObject`: the template literal joining the
running key path and the current key with an underscore when the path is
truthy, and just the current key otherwise — the only falsy JS string being
the empty one. -/
def joinKey (pre k : String) : String :=
  if pre = "" then k else pre ++ "_" ++ k

mutual

/-- `FirestoreParser.flattenObject(obj, prefix)`: flatten a nested object into
underscore-separated keys.  A value recurses exactly when it passes the JS
test `value !== null && typeof value === 'object' && !Array.isArray(value)`,
i.e. exactly when it is a (non-array, non-null) object; everything else —
scalars, `null`, `undefined` and arrays — is written as a leaf. -/
def flattenObject (fields : List (String × JSVal)) (pre : String) :
    List (String × JSVal) :=
  flattenGo [] fields pre
termination_by sizeOf fields * 2 + 1
decreasing_by omega

/-- The `for (key, value) of Object.entries(obj)` loop of `flattenObject`,
threading the `result` object through the iterations. -/
def flattenGo (result : List (String × JSVal)) :
    List (String × JSVal) → String → List (String × JSVal)
  | [], _ => result
  | (k, v) :: rest, pre =>
    let newKey := joinKey pre k
    match v with
    | .obj fs => flattenGo (objAssign result (flattenObject fs newKey)) rest pre
    | _ => flattenGo (recordSet result newKey v) rest pre
termination_by entries _ => sizeOf entries * 2
decreasing_by
  all_goals
    simp only [JSVal.obj.sizeOf_spec, Prod.mk.sizeOf_spec, List.cons.sizeOf_spec]
    omega

end

/-- Split a list of characters at every occurrence of the separator
character (the segments between separators, in order). -/
def splitSegs : List Char → List Char → List (List Char)
  | [], acc => [acc.reverse]
  | c :: cs, acc =>
    if c = '_' then acc.reverse :: splitSegs cs [] else splitSegs cs (c :: acc)

/-- Modelled from the spec: splitting a flat key on the separator `'_'`
(the repository ships no unflatten function; the spec's round-trip law
describes rebuilding the nested map by splitting flat keys on the
separator). -/
def splitKey (s : String) : List String :=
  (splitSegs s.data []).map fun l => ⟨l⟩

/-- Insert a value at nested path `k :: rest` into an association-list
object: descend along existing keys (appending a fresh key at the end,
matching JS insertion order) and create intermediate objects as needed. -/
def insertAt (fields : List (String × JSVal)) (k : String)
    (rest : List String) (v : JSVal) : List (String × JSVal) :=
  match fields with
  | [] =>
    match rest with
    | [] => [(k, v)]
    | r :: rs => [(k, .obj (insertAt [] r rs v))]
  | (k', v') :: fs =>
    if k' = k then
      match rest with
      | [] => (k, v) :: fs
      | r :: rs =>
        match v' with
        | .obj inner => (k, .obj (insertAt inner r rs v)) :: fs
        | _ => (k, .obj (insertAt [] r rs v)) :: fs
    else (k', v') :: insertAt fs k rest v
termination_by (rest, fields)

/-- Insert one flat entry, whose key has already been split into a path,
into the nested object under construction. -/
def insertEntry (fields : List (String × JSVal)) (path : List String)
    (v : JSVal) : List (String × JSVal) :=
  match path with
  | [] => fields
  | k :: rest => insertAt fields k rest v

/-- Modelled from the spec: rebuild the nested map from a flat map by
splitting every flat key on the separator and inserting the value at the
resulting nested path, in flat-map order. -/
def unflatten (flat : List (String × JSVal)) : List (String × JSVal) :=
  flat.foldl (fun acc e => insertEntry acc (splitKey e.1) e.2) []

/-! ## Round-trip analysis of flatten/unflatten

`flatApp` is the append-form of `flattenObject` (it lists each flat entry
once, in document order, without going through the threaded `result`
object); `flattenP` is its path-level counterpart, keeping the key path as
a list of segments instead of a joined string.  Under the well-formedness
conditions `goodFields`, all three coincide and the round trip holds. -/

/-- Append-form flattening: same entries, in the same order, as
`flattenObject`, produced by plain list concatenation. -/
def flatApp : List (String × JSVal) → String → List (String × JSVal)
  | [], _ => []
  | (k, v) :: rest, pre =>
    match v with
    | .obj fs => flatApp fs (joinKey pre k) ++ flatApp rest pre
    | _ => (joinKey pre k, v) :: flatApp rest pre
termination_by entries _ => sizeOf entries
decreasing_by
  all_goals
    simp only [JSVal.obj.sizeOf_spec, Prod.mk.sizeOf_spec, List.cons.sizeOf_spec]
    omega

/-- Path-level flattening: the flat entries of a nested object with their
key paths kept as segment lists. -/
def flattenP : List (String × JSVal) → List (List String × JSVal)
  | [] => []
  | (k, v) :: rest =>
    match v with
    | .obj fs => (flattenP fs).map (fun e => (k :: e.1, e.2)) ++ flattenP rest
    | _ => ([k], v) :: flattenP rest
termination_by entries => sizeOf entries
decreasing_by
  all_goals
    simp only [JSVal.obj.sizeOf_spec, Prod.mk.sizeOf_spec, List.cons.sizeOf_spec]
    omega

/-- A key that survives flattening unambiguously: nonempty and free of the
separator character. -/
def goodKey (k : String) : Bool :=
  !(k = "") && !('_' ∈ k.data)

mutual

/-- A value whose flattening is unambiguous: every nested object is nonempty
and recursively good (scalars and arrays are leaves and always good). -/
def goodVal : JSVal → Bool
  | .obj fs => !fs.isEmpty && goodFields fs
  | _ => true
termination_by v => sizeOf v

/-- A nested object whose flattening round-trips: all keys good and distinct
at every level, all nested objects nonempty. -/
def goodFields : List (String × JSVal) → Bool
  | [] => true
  | (k, v) :: rest =>
    goodKey k && goodVal v && rest.all (fun e => !(e.1 = k)) && goodFields rest
termination_by fs => sizeOf fs
decreasing_by
  all_goals
    simp only [Prod.mk.sizeOf_spec, List.cons.sizeOf_spec]
    omega

end

/-- Keys of an association-list object, in order. -/
def keysOf (fields : List (String × JSVal)) : List String :=
  fields.map Prod.fst

/-- Fold a list of path-keyed entries into a nested object. -/
def foldIns (acc : List (String × JSVal))
    (es : List (List String × JSVal)) : List (String × JSVal) :=
  es.foldl (fun a e => insertEntry a e.1 e.2) acc

theorem splitSegs_append (l₁ l₂ : List Char) (acc : List Char) :
    splitSegs (l₁ ++ '_' :: l₂) acc = splitSegs l₁ acc ++ splitSegs l₂ [] := by
  induction l₁ generalizing acc with
  | nil => simp [splitSegs]
  | cons c cs ih =>
    by_cases hc : c = '_' <;> simp [splitSegs, hc, ih]

theorem splitSegs_no_sep (l : List Char) (acc : List Char)
    (h : '_' ∉ l) : splitSegs l acc = [acc.reverse ++ l] := by
  induction l generalizing acc with
  | nil => simp [splitSegs]
  | cons c cs ih =>
    have hc : c ≠ '_' := fun hh => h (hh ▸ List.mem_cons_self c cs)
    have hcs : '_' ∉ cs := fun hh => h (List.mem_cons_of_mem c hh)
    rw [splitSegs, if_neg (fun hh => hc hh), ih (c :: acc) hcs]
    simp

theorem splitKey_no_sep (k : String) (h : '_' ∉ k.data) :
    splitKey k = [k] := by
  simp [splitKey, splitSegs_no_sep k.data [] h]

theorem splitKey_append_sep (p k : String) (h : '_' ∉ k.data) :
    splitKey (p ++ "_" ++ k) = splitKey p ++ [k] := by
  have hdata : (p ++ "_" ++ k).data = p.data ++ '_' :: k.data := by
    simp [String.data_append]
  simp [splitKey, hdata, splitSegs_append, splitSegs_no_sep k.data [] h]

theorem string_eq_empty_iff (s : String) : s = "" ↔ s.data = [] := by
  constructor
  · intro h
    rw [h]
  · intro h
    exact String.ext (by rw [h])

theorem string_ne_empty_iff (s : String) : s ≠ "" ↔ s.data ≠ [] :=
  not_congr (string_eq_empty_iff s)

/-- The prefix string of a recursive `flattenObject` call, as a path:
empty for the top-level empty prefix, otherwise its split. -/
def preSegs (pre : String) : List String :=
  if pre = "" then [] else splitKey pre

theorem joinKey_ne_empty (pre k : String) (hk : k ≠ "") :
    joinKey pre k ≠ "" := by
  unfold joinKey
  by_cases hp : pre = ""
  · simpa [hp]
  · simp only [hp, if_false]
    rw [string_ne_empty_iff]
    rw [string_ne_empty_iff] at hk
    simp [String.data_append]

theorem splitKey_joinKey (pre k : String) (hk : '_' ∉ k.data) :
    splitKey (joinKey pre k) = preSegs pre ++ [k] := by
  unfold joinKey preSegs
  by_cases hp : pre = ""
  · simp [hp, splitKey_no_sep k hk]
  · simp [hp, splitKey_append_sep pre k hk]

theorem preSegs_joinKey (pre k : String) (hk : '_' ∉ k.data) (hk0 : k ≠ "") :
    preSegs (joinKey pre k) = preSegs pre ++ [k] := by
  rw [show preSegs (joinKey pre k) = splitKey (joinKey pre k) by
    simp [preSegs, joinKey_ne_empty pre k hk0]]
  exact splitKey_joinKey pre k hk

theorem keysOf_nil : keysOf [] = [] := rfl

theorem keysOf_cons (e : String × JSVal) (rest : List (String × JSVal)) :
    keysOf (e :: rest) = e.1 :: keysOf rest := rfl

theorem keysOf_append (a b : List (String × JSVal)) :
    keysOf (a ++ b) = keysOf a ++ keysOf b := by
  simp [keysOf]

theorem recordSet_fresh (m : List (String × JSVal)) (k : String) (v : JSVal)
    (h : k ∉ keysOf m) : recordSet m k v = m ++ [(k, v)] := by
  induction m with
  | nil => rfl
  | cons e rest ih =>
    have hk : e.1 ≠ k := fun hh => h (by simp [keysOf_cons, hh])
    have hrest : k ∉ keysOf rest := fun hh => h (by simp [keysOf_cons]; tauto)
    obtain ⟨k', v'⟩ := e
    simp only [recordSet, if_neg hk, List.cons_append, List.cons.injEq, true_and]
    exact ih hrest

theorem objAssign_fresh (src : List (String × JSVal)) :
    ∀ target, (∀ k ∈ keysOf src, k ∉ keysOf target) → (keysOf src).Nodup →
    objAssign target src = target ++ src := by
  induction src with
  | nil => intro target _ _; simp [objAssign]
  | cons e rest ih =>
    intro target hdisj hnd
    obtain ⟨k, v⟩ := e
    simp only [keysOf_cons, List.nodup_cons] at hnd
    have hk : k ∉ keysOf target := hdisj k (by simp [keysOf_cons])
    show objAssign (recordSet target k v) rest = target ++ (k, v) :: rest
    rw [recordSet_fresh target k v hk, ih (target ++ [(k, v)]) ?_ hnd.2]
    · simp
    · intro k' hk'
      have h1 : k' ∉ keysOf target := hdisj k' (by simp [keysOf_cons]; tauto)
      have h2 : k' ≠ k := fun hh => hnd.1 (hh ▸ hk')
      simp [keysOf_append, keysOf_cons, keysOf_nil, h1, h2]

theorem insertAt_cons_ne (k' : String) (v' : JSVal)
    (fs : List (String × JSVal)) (k : String) (rest : List String) (v : JSVal)
    (h : k' ≠ k) :
    insertAt ((k', v') :: fs) k rest v = (k', v') :: insertAt fs k rest v := by
  cases rest with
  | nil => simp [insertAt, h]
  | cons r rs => cases v' <;> simp [insertAt, h]

theorem insertAt_fresh_nil (acc : List (String × JSVal)) (k : String)
    (v : JSVal) (h : k ∉ keysOf acc) :
    insertAt acc k [] v = acc ++ [(k, v)] := by
  induction acc with
  | nil => simp [insertAt]
  | cons e rest ih =>
    obtain ⟨k', v'⟩ := e
    have hk : k' ≠ k := fun hh => h (by simp [keysOf_cons, hh])
    have hrest : k ∉ keysOf rest := fun hh => h (by simp [keysOf_cons]; tauto)
    rw [insertAt_cons_ne k' v' rest k [] v hk, ih hrest]
    simp

theorem insertAt_fresh_cons (acc : List (String × JSVal)) (k : String)
    (r : String) (rs : List String) (v : JSVal) (h : k ∉ keysOf acc) :
    insertAt acc k (r :: rs) v = acc ++ [(k, .obj (insertAt [] r rs v))] := by
  induction acc with
  | nil => simp [insertAt]
  | cons e rest ih =>
    obtain ⟨k', v'⟩ := e
    have hk : k' ≠ k := fun hh => h (by simp [keysOf_cons, hh])
    have hrest : k ∉ keysOf rest := fun hh => h (by simp [keysOf_cons]; tauto)
    rw [insertAt_cons_ne k' v' rest k (r :: rs) v hk, ih hrest]
    simp

theorem insertAt_found (acc₀ : List (String × JSVal)) (k : String)
    (A : List (String × JSVal)) (r : String) (rs : List String) (v : JSVal)
    (h : k ∉ keysOf acc₀) :
    insertAt (acc₀ ++ [(k, .obj A)]) k (r :: rs) v
      = acc₀ ++ [(k, .obj (insertAt A r rs v))] := by
  induction acc₀ with
  | nil => simp [insertAt]
  | cons e rest ih =>
    obtain ⟨k', v'⟩ := e
    have hk : k' ≠ k := fun hh => h (by simp [keysOf_cons, hh])
    have hrest : k ∉ keysOf rest := fun hh => h (by simp [keysOf_cons]; tauto)
    rw [List.cons_append, insertAt_cons_ne k' v' _ k (r :: rs) v hk, ih hrest]
    simp

/-- Strong induction on nested field lists by size, used because
`flattenObject` and friends recurse into values nested inside entries. -/
theorem fields_strong_ind (motive : List (String × JSVal) → Prop)
    (step : ∀ fields,
      (∀ fs : List (String × JSVal), sizeOf fs < sizeOf fields → motive fs) →
      motive fields) :
    ∀ fields, motive fields := by
  have key : ∀ n fields, sizeOf fields ≤ n → motive fields := by
    intro n
    induction n with
    | zero =>
      intro fields h
      exact step fields fun fs hfs => absurd (Nat.lt_of_lt_of_le hfs h) (by omega)
    | succ n ih =>
      intro fields h
      exact step fields fun fs hfs => ih fs (by omega)
  exact fun fields => key (sizeOf fields) fields (le_refl _)

theorem goodKey_spec (k : String) (h : goodKey k = true) :
    k ≠ "" ∧ '_' ∉ k.data := by
  simpa [goodKey] using h

theorem goodFields_cons_spec (k : String) (v : JSVal)
    (rest : List (String × JSVal)) (h : goodFields ((k, v) :: rest) = true) :
    goodKey k = true ∧ goodVal v = true ∧ (∀ e ∈ rest, e.1 ≠ k) ∧
      goodFields rest = true := by
  rw [goodFields] at h
  simp only [Bool.and_eq_true, List.all_eq_true] at h
  refine ⟨h.1.1.1, h.1.1.2, fun e he => ?_, h.2⟩
  simpa using h.1.2 e he

theorem goodVal_obj_spec (fs : List (String × JSVal))
    (h : goodVal (.obj fs) = true) : fs ≠ [] ∧ goodFields fs = true := by
  rw [goodVal] at h
  simp only [Bool.and_eq_true] at h
  exact ⟨by simpa [List.isEmpty_iff] using h.1, h.2⟩

theorem sizeOf_fs_lt (k : String) (fs : List (String × JSVal))
    (rest : List (String × JSVal)) :
    sizeOf fs < sizeOf ((k, JSVal.obj fs) :: rest) := by
  simp only [JSVal.obj.sizeOf_spec, Prod.mk.sizeOf_spec, List.cons.sizeOf_spec]
  omega

theorem sizeOf_rest_lt (e : String × JSVal) (rest : List (String × JSVal)) :
    sizeOf rest < sizeOf (e :: rest) := by
  simp only [List.cons.sizeOf_spec]
  omega

theorem foldIns_cons (acc : List (String × JSVal))
    (e : List String × JSVal) (es : List (List String × JSVal)) :
    foldIns acc (e :: es) = foldIns (insertEntry acc e.1 e.2) es := rfl

theorem foldIns_append (acc : List (String × JSVal))
    (a b : List (List String × JSVal)) :
    foldIns acc (a ++ b) = foldIns (foldIns acc a) b := by
  simp [foldIns, List.foldl_append]

theorem foldIns_block (es : List (List String × JSVal)) :
    ∀ (acc₀ A : List (String × JSVal)) (k : String),
    (∀ e ∈ es, e.1 ≠ []) → k ∉ keysOf acc₀ →
    foldIns (acc₀ ++ [(k, .obj A)]) (es.map fun e => (k :: e.1, e.2))
      = acc₀ ++ [(k, .obj (foldIns A es))] := by
  induction es with
  | nil => intro acc₀ A k _ _; simp [foldIns]
  | cons e es ih =>
    intro acc₀ A k hne hk
    obtain ⟨path, v⟩ := e
    cases path with
    | nil => exact absurd rfl (hne (⟨[], v⟩) (by simp))
    | cons r rs =>
      rw [List.map_cons, foldIns_cons]
      show foldIns (insertAt (acc₀ ++ [(k, .obj A)]) k (r :: rs) v) _ = _
      rw [insertAt_found acc₀ k A r rs v hk,
        ih acc₀ (insertAt A r rs v) k (fun e he => hne e (by simp [he])) hk]
      rfl

theorem foldIns_block_fresh (es : List (List String × JSVal))
    (acc : List (String × JSVal)) (k : String) (hes : es ≠ [])
    (hne : ∀ e ∈ es, e.1 ≠ []) (hk : k ∉ keysOf acc) :
    foldIns acc (es.map fun e => (k :: e.1, e.2))
      = acc ++ [(k, .obj (foldIns [] es))] := by
  cases es with
  | nil => exact absurd rfl hes
  | cons e es =>
    obtain ⟨path, v⟩ := e
    cases path with
    | nil => exact absurd rfl (hne (⟨[], v⟩) (by simp))
    | cons r rs =>
      rw [List.map_cons, foldIns_cons]
      show foldIns (insertAt acc k (r :: rs) v) _ = _
      rw [insertAt_fresh_cons acc k r rs v hk,
        foldIns_block es acc (insertAt [] r rs v) k
          (fun e he => hne e (by simp [he])) hk]
      rfl

theorem flattenP_shape :
    ∀ fields, ∀ e ∈ flattenP fields,
    ∃ k rest, e.1 = k :: rest ∧ k ∈ keysOf fields := by
  intro fields
  induction fields with
  | nil => intro e he; simp [flattenP] at he
  | cons hd rest ih =>
    intro e he
    obtain ⟨k, v⟩ := hd
    cases v
    case obj fs =>
      simp only [flattenP, List.mem_append, List.mem_map] at he
      rcases he with ⟨q, _, rfl⟩ | he
      · exact ⟨k, q.1, rfl, by simp [keysOf_cons]⟩
      · obtain ⟨k', r', he1, he2⟩ := ih e he
        exact ⟨k', r', he1, by simp [keysOf_cons]; right; exact he2⟩
    all_goals
      simp only [flattenP, List.mem_cons] at he
      rcases he with rfl | he
      · exact ⟨k, [], rfl, by simp [keysOf_cons]⟩
      · obtain ⟨k', r', he1, he2⟩ := ih e he
        exact ⟨k', r', he1, by simp [keysOf_cons]; right; exact he2⟩

theorem mem_keysOf (k : String) (fields : List (String × JSVal)) :
    k ∈ keysOf fields ↔ ∃ e ∈ fields, e.1 = k := by
  simp [keysOf, List.mem_map]

theorem flattenP_ne_nil :
    ∀ fields, goodFields fields = true → fields ≠ [] → flattenP fields ≠ [] := by
  refine fields_strong_ind _ ?_
  intro fields ih hg hne
  cases fields with
  | nil => exact absurd rfl hne
  | cons hd rest =>
    obtain ⟨k, v⟩ := hd
    have hspec := goodFields_cons_spec k v rest hg
    cases v
    case obj fs =>
      have hobj := goodVal_obj_spec fs hspec.2.1
      have hP := ih fs (sizeOf_fs_lt k fs rest) hobj.2 hobj.1
      simp only [flattenP]
      intro hcontra
      rcases List.append_eq_nil.mp hcontra with ⟨h1, _⟩
      exact hP (List.map_eq_nil_iff.mp h1)
    all_goals simp [flattenP]

theorem flattenP_paths_nodup :
    ∀ fields, goodFields fields = true →
    ((flattenP fields).map Prod.fst).Nodup := by
  refine fields_strong_ind _ ?_
  intro fields ih hg
  cases fields with
  | nil => simp [flattenP]
  | cons hd rest =>
    obtain ⟨k, v⟩ := hd
    obtain ⟨hk, hv, hdist, hrest⟩ := goodFields_cons_spec k v rest hg
    have ihrest := ih rest (sizeOf_rest_lt _ _) hrest
    have hknot : ∀ q, (k :: q) ∉ (flattenP rest).map Prod.fst := by
      intro q hq
      rw [List.mem_map] at hq
      obtain ⟨e, he, he1⟩ := hq
      obtain ⟨k', r', hsh, hmem⟩ := flattenP_shape rest e he
      rw [hsh] at he1
      have hk'k : k' = k := by simpa using congrArg List.head? he1
      obtain ⟨e', he', hke⟩ := (mem_keysOf k' rest).mp hmem
      exact hdist e' he' (hke.trans hk'k)
    cases v
    case obj fs =>
      obtain ⟨hfs_ne, hfs_good⟩ := goodVal_obj_spec fs hv
      have ihfs := ih fs (sizeOf_fs_lt k fs rest) hfs_good
      simp only [flattenP, List.map_append, List.map_map]
      rw [List.nodup_append]
      refine ⟨?_, ihrest, ?_⟩
      · have h1 : (Prod.fst ∘ fun e : List String × JSVal => (k :: e.1, e.2))
            = fun e : List String × JSVal => k :: e.1 := rfl
        have h2 : (flattenP fs).map (fun e : List String × JSVal => k :: e.1)
            = ((flattenP fs).map Prod.fst).map (fun l => k :: l) := by
          simp [List.map_map]
        rw [h1, h2]
        exact ihfs.map fun a b hab => List.cons_injective hab
      · intro p hp hp'
        rw [List.mem_map] at hp
        obtain ⟨q, _, rfl⟩ := hp
        exact hknot q.1 hp'
    all_goals
      simp only [flattenP, List.map_cons]
      rw [List.nodup_cons]
      exact ⟨hknot [], ihrest⟩

theorem foldIns_flattenP :
    ∀ fields, goodFields fields = true →
    ∀ acc, (∀ k ∈ keysOf fields, k ∉ keysOf acc) →
    foldIns acc (flattenP fields) = acc ++ fields := by
  refine fields_strong_ind _ ?_
  intro fields ih hg acc hdisj
  cases fields with
  | nil => simp [flattenP, foldIns]
  | cons hd rest =>
    obtain ⟨k, v⟩ := hd
    obtain ⟨hk, hv, hdist, hrest⟩ := goodFields_cons_spec k v rest hg
    have hkacc : k ∉ keysOf acc := hdisj k (by simp [keysOf_cons])
    have hdisj2 : ∀ vv : JSVal, ∀ k' ∈ keysOf rest,
        k' ∉ keysOf (acc ++ [(k, vv)]) := by
      intro vv k' hk'
      have h1 : k' ∉ keysOf acc :=
        hdisj k' (by simp [keysOf_cons]; right; exact hk')
      have h2 : k' ≠ k := by
        rw [mem_keysOf] at hk'
        obtain ⟨e, he, rfl⟩ := hk'
        exact hdist e he
      simp [keysOf_append, keysOf_cons, keysOf_nil, h1, h2]
    cases v
    case obj fs =>
      obtain ⟨hfs_ne, hfs_good⟩ := goodVal_obj_spec fs hv
      simp only [flattenP]
      rw [foldIns_append,
        foldIns_block_fresh (flattenP fs) acc k
          (flattenP_ne_nil fs hfs_good hfs_ne)
          (fun e he => by
            obtain ⟨k', r', he1, _⟩ := flattenP_shape fs e he
            simp [he1])
          hkacc,
        ih fs (sizeOf_fs_lt k fs rest) hfs_good [] (by simp [keysOf_nil])]
      simp only [List.nil_append]
      rw [ih rest (sizeOf_rest_lt _ _) hrest (acc ++ [(k, JSVal.obj fs)])
          (hdisj2 (JSVal.obj fs))]
      simp
    all_goals
      simp only [flattenP]
      rw [foldIns_cons]
      simp only [insertEntry]
      rw [insertAt_fresh_nil acc k _ hkacc,
        ih rest (sizeOf_rest_lt _ _) hrest _ (hdisj2 _)]
      simp

theorem flatApp_split :
    ∀ fields, goodFields fields = true → ∀ pre,
    (flatApp fields pre).map (fun e => (splitKey e.1, e.2))
      = (flattenP fields).map (fun e => (preSegs pre ++ e.1, e.2)) := by
  refine fields_strong_ind _ ?_
  intro fields ih hg pre
  cases fields with
  | nil => simp [flatApp, flattenP]
  | cons hd rest =>
    obtain ⟨k, v⟩ := hd
    obtain ⟨hk, hv, hdist, hrest⟩ := goodFields_cons_spec k v rest hg
    obtain ⟨hk0, hku⟩ := goodKey_spec k hk
    have ihrest := ih rest (sizeOf_rest_lt _ _) hrest pre
    cases v
    case obj fs =>
      obtain ⟨hfs_ne, hfs_good⟩ := goodVal_obj_spec fs hv
      have ihfs := ih fs (sizeOf_fs_lt k fs rest) hfs_good (joinKey pre k)
      simp only [flatApp, flattenP, List.map_append, List.map_map]
      rw [ihfs, ihrest, preSegs_joinKey pre k hku hk0]
      congr 1
      have hfun :
          ((fun e : List String × JSVal => (preSegs pre ++ e.1, e.2)) ∘
            fun e : List String × JSVal => (k :: e.1, e.2))
          = fun e : List String × JSVal =>
              ((preSegs pre ++ [k]) ++ e.1, e.2) := by
        funext e
        simp
      rw [hfun]
    all_goals
      simp only [flatApp, flattenP, List.map_cons]
      rw [splitKey_joinKey pre k hku, ihrest]

theorem flatApp_keys_nodup (fields : List (String × JSVal))
    (hg : goodFields fields = true) (pre : String) :
    (keysOf (flatApp fields pre)).Nodup := by
  have h := congrArg (List.map Prod.fst) (flatApp_split fields hg pre)
  simp only [List.map_map] at h
  have hmap : (keysOf (flatApp fields pre)).map splitKey
      = ((flattenP fields).map Prod.fst).map (fun p => preSegs pre ++ p) := by
    simpa [keysOf, List.map_map, Function.comp] using h
  apply List.Nodup.of_map splitKey
  rw [hmap]
  exact (flattenP_paths_nodup fields hg).map
    fun a b hab => List.append_cancel_left hab

theorem flattenGo_eq_flatApp :
    ∀ entries, ∀ (result : List (String × JSVal)) (pre : String),
    (keysOf (flatApp entries pre)).Nodup →
    (∀ k ∈ keysOf (flatApp entries pre), k ∉ keysOf result) →
    flattenGo result entries pre = result ++ flatApp entries pre := by
  refine fields_strong_ind _ ?_
  intro entries ih result pre hnd hdisj
  cases entries with
  | nil => simp [flattenGo, flatApp]
  | cons hd rest =>
    obtain ⟨k, v⟩ := hd
    cases v
    case obj fs =>
      simp only [flatApp, keysOf_append] at hnd hdisj
      rw [List.nodup_append] at hnd
      obtain ⟨hnd1, hnd2, hdisj12⟩ := hnd
      simp only [flattenGo]
      have hObj : flattenObject fs (joinKey pre k) = flatApp fs (joinKey pre k) := by
        rw [flattenObject,
          ih fs (sizeOf_fs_lt k fs rest) [] (joinKey pre k) hnd1
            (by simp [keysOf_nil])]
        simp
      rw [hObj,
        objAssign_fresh (flatApp fs (joinKey pre k)) result
          (fun k' hk' => hdisj k' (List.mem_append.mpr (Or.inl hk'))) hnd1,
        ih rest (sizeOf_rest_lt _ _) (result ++ flatApp fs (joinKey pre k)) pre
          hnd2 ?_]
      · simp [flatApp]
      · intro k' hk'
        rw [keysOf_append, List.mem_append]
        push_neg
        exact ⟨hdisj k' (List.mem_append.mpr (Or.inr hk')),
          fun hh => hdisj12 hh hk'⟩
    all_goals
      simp only [flatApp, keysOf_cons] at hnd hdisj
      rw [List.nodup_cons] at hnd
      obtain ⟨hknotin, hnd2⟩ := hnd
      simp only [flattenGo]
      rw [recordSet_fresh result _ _ (hdisj _ (by simp)),
        ih rest (sizeOf_rest_lt _ _) _ pre hnd2 ?_]
      · simp [flatApp]
      · intro k' hk'
        rw [keysOf_append, List.mem_append]
        push_neg
        refine ⟨hdisj k' (by simp; right; exact hk'), ?_⟩
        simp only [keysOf_cons, keysOf_nil]
        simp
        intro hh
        rw [hh] at hk'
        exact hknotin hk'

theorem flattenObject_eq_flatApp (fields : List (String × JSVal))
    (hg : goodFields fields = true) (pre : String) :
    flattenObject fields pre = flatApp fields pre := by
  rw [flattenObject,
    flattenGo_eq_flatApp fields [] pre (flatApp_keys_nodup fields hg pre)
      (by simp [keysOf_nil])]
  simp

theorem unflatten_eq_foldIns (flat : List (String × JSVal)) :
    unflatten flat = foldIns [] (flat.map fun e => (splitKey e.1, e.2)) := by
  unfold unflatten foldIns
  rw [List.foldl_map]

/-- C3 (amended): for every nested map whose leaf values are scalars or
lists (every nested sub-map nonempty) and whose key names are nonempty,
distinct per level, and free of the separator, flattening with
`flattenObject` and rebuilding by splitting the flat keys on the separator
yields back the original nested map.  The nonemptiness of key names is
forced by the counterexample `C3_flatten_roundtrip_counterexample`: an
empty top-level key with a map value is erased by the falsy-prefix test. -/
theorem flatten_unflatten_roundtrip (fields : List (String × JSVal))
    (hg : goodFields fields = true) :
    unflatten (flattenObject fields "") = fields := by
  rw [flattenObject_eq_flatApp fields hg "", unflatten_eq_foldIns,
    flatApp_split fields hg ""]
  rw [show preSegs "" = [] from rfl]
  simp only [List.nil_append]
  rw [show (flattenP fields).map (fun e : List String × JSVal => (e.1, e.2))
      = flattenP fields by simp]
  simpa using foldIns_flattenP fields hg [] (by simp [keysOf_nil])

/-! ## `HaywardApi`: session lifecycle and document fetch

The network is modelled by an oracle `ApiCtx` fixing the clock, the outcome
of the identity-provider calls and the statuses of the (at most two)
document reads of one `fetchPoolData` call.  Every operation returns the
new token state, the ordered list of observable events, and its result. -/

/-- `TOKEN_REFRESH_BUFFER_MS = 5 * 60 * 1000`. -/
def TOKEN_REFRESH_BUFFER_MS : Int := 5 * 60 * 1000

/-- The `AuthTokens` record kept in `this.tokens`. -/
structure AuthTokens where
  idToken : String
  refreshToken : String
  expiresAt : Int
  localId : String

/-- Parsed body of a successful `signInWithPassword` call; `expiresIn` is
the integer number of seconds obtained by `parseInt(data.expiresIn, 10)`. -/
structure FirebaseAuthResponse where
  idToken : String
  refreshToken : String
  expiresIn : Int
  localId : String

/-- Parsed body of a successful secure-token refresh call. -/
structure FirebaseTokenRefreshResponse where
  id_token : String
  refresh_token : String
  expires_in : Int
  user_id : String

/-- `HaywardAuthError` / `HaywardApiError` with their `statusCode`. -/
inductive HError where
  | authError (statusCode : Option Nat)
  | apiError (statusCode : Nat)
  deriving DecidableEq

/-- Observable events of one API call, in order: identity-provider calls,
the clearing of `this.tokens` on a 401/403, and each document read with
the bearer token it used and the HTTP status it got. -/
inductive ApiEv where
  | authCall
  | refreshCall
  | invalidate
  | docRead (token : String) (status : Nat)
  deriving DecidableEq

/-- Network oracle for one `fetchPoolData` call: current time, outcome of
an `authenticate` (HTTP error status, or parsed body), outcome of a
`refreshToken`, the statuses of the first and the retried document read,
and the document fields returned on success. -/
structure ApiCtx where
  now : Int
  authResp : Except Nat FirebaseAuthResponse
  refreshResp : Except Nat FirebaseTokenRefreshResponse
  readStatus1 : Nat
  readStatus2 : Nat
  doc : List (String × FirestoreValue)

/-- The token record built by `authenticate` from a successful response:
`expiresAt = Date.now() + parseInt(expiresIn, 10) * 1000`. -/
def tokensOfAuth (ctx : ApiCtx) (d : FirebaseAuthResponse) : AuthTokens :=
  { idToken := d.idToken
    refreshToken := d.refreshToken
    expiresAt := ctx.now + d.expiresIn * 1000
    localId := d.localId }

/-- The token record built by `refreshToken` from a successful response. -/
def tokensOfRefresh (ctx : ApiCtx) (r : FirebaseTokenRefreshResponse) :
    AuthTokens :=
  { idToken := r.id_token
    refreshToken := r.refresh_token
    expiresAt := ctx.now + r.expires_in * 1000
    localId := r.user_id }

/-- `HaywardApi.authenticate`: POST to the identity provider; on a non-ok
response throw `HaywardAuthError` (leaving `this.tokens` untouched),
otherwise store and return the new tokens. -/
def authenticate (ctx : ApiCtx) (st : Option AuthTokens) :
    Option AuthTokens × List ApiEv × Except HError AuthTokens :=
  match ctx.authResp with
  | .error status => (st, [.authCall], .error (.authError (some status)))
  | .ok d => (some (tokensOfAuth ctx d), [.authCall], .ok (tokensOfAuth ctx d))

/-- `HaywardApi.refreshToken`: throw `HaywardAuthError` when no (truthy)
refresh token is stored; on an HTTP failure clear `this.tokens` and throw;
otherwise store and return the refreshed tokens. -/
def refreshTokenOp (ctx : ApiCtx) (st : Option AuthTokens) :
    Option AuthTokens × List ApiEv × Except HError AuthTokens :=
  match st with
  | none => (none, [.refreshCall], .error (.authError none))
  | some tk =>
    if tk.refreshToken = "" then
      (some tk, [.refreshCall], .error (.authError none))
    else
      match ctx.refreshResp with
      | .error status => (none, [.refreshCall], .error (.authError (some status)))
      | .ok r =>
        (some (tokensOfRefresh ctx r), [.refreshCall], .ok (tokensOfRefresh ctx r))

/-- `HaywardApi.ensureValidToken`: authenticate when no session exists;
refresh when the stored expiry is within `TOKEN_REFRESH_BUFFER_MS` of now,
falling back to a full authenticate when the refresh throws; return the
stored id token. -/
def ensureValidToken (ctx : ApiCtx) (st : Option AuthTokens) :
    Option AuthTokens × List ApiEv × Except HError String :=
  match st with
  | none =>
    match authenticate ctx none with
    | (st', evs, .ok t) => (st', evs, .ok t.idToken)
    | (st', evs, .error e) => (st', evs, .error e)
  | some tk =>
    if ctx.now ≥ tk.expiresAt - TOKEN_REFRESH_BUFFER_MS then
      match refreshTokenOp ctx (some tk) with
      | (st', evs, .ok t) => (st', evs, .ok t.idToken)
      | (st', evs, .error _) =>
        match authenticate ctx st' with
        | (st'', evs', .ok t) => (st'', evs ++ evs', .ok t.idToken)
        | (st'', evs', .error e) => (st'', evs ++ evs', .error e)
    else (some tk, [], .ok tk.idToken)

/-- Is an HTTP status `response.ok`, i.e. in the 200–299 range? -/
def statusOk (status : Nat) : Bool :=
  200 ≤ status && status < 300

/-- `HaywardApi.fetchPoolData`: obtain a token, read the pool document;
on a 401/403 clear `this.tokens` and retry once with a freshly obtained
token; throw `HaywardApiError` with the final HTTP status when the final
response is not ok, else decode with `parseFields` and `flattenObject`. -/
def fetchPoolData (ctx : ApiCtx) (st : Option AuthTokens) :
    Option AuthTokens × List ApiEv × Except HError (List (String × JSVal)) :=
  match ensureValidToken ctx st with
  | (st1, evs1, .error e) => (st1, evs1, .error e)
  | (st1, evs1, .ok idToken) =>
    let evs2 := evs1 ++ [.docRead idToken ctx.readStatus1]
    if ctx.readStatus1 = 401 ∨ ctx.readStatus1 = 403 then
      match ensureValidToken ctx none with
      | (st2, evs3, .error e) =>
        (st2, evs2 ++ [.invalidate] ++ evs3, .error e)
      | (st2, evs3, .ok newToken) =>
        let evs4 := evs2 ++ [.invalidate] ++ evs3
          ++ [.docRead newToken ctx.readStatus2]
        if statusOk ctx.readStatus2 then
          (st2, evs4, .ok (flattenObject (parseFields ctx.doc) ""))
        else
          (st2, evs4, .error (.apiError ctx.readStatus2))
    else
      if statusOk ctx.readStatus1 then
        (st1, evs2, .ok (flattenObject (parseFields ctx.doc) ""))
      else
        (st1, evs2, .error (.apiError ctx.readStatus1))

/-- Is an event a document read? -/
def isDocRead : ApiEv → Bool
  | .docRead _ _ => true
  | _ => false

theorem ensureValidToken_none_ok (ctx : ApiCtx) (d : FirebaseAuthResponse)
    (h : ctx.authResp = .ok d) :
    ensureValidToken ctx none
      = (some (tokensOfAuth ctx d), [.authCall], .ok d.idToken) := by
  simp [ensureValidToken, authenticate, h, tokensOfAuth]

theorem ensureValidToken_ok (ctx : ApiCtx) (d : FirebaseAuthResponse)
    (h : ctx.authResp = .ok d) (st : Option AuthTokens) :
    ∃ st' evs tok, ensureValidToken ctx st = (st', evs, .ok tok)
      ∧ ApiEv.invalidate ∉ evs ∧ evs.filter isDocRead = [] := by
  cases st with
  | none =>
    exact ⟨_, _, _, ensureValidToken_none_ok ctx d h, by simp,
      by simp [isDocRead]⟩
  | some tk =>
    by_cases hexp : ctx.now ≥ tk.expiresAt - TOKEN_REFRESH_BUFFER_MS
    · by_cases hrt : tk.refreshToken = ""
      · exact ⟨some (tokensOfAuth ctx d), [.refreshCall, .authCall], d.idToken,
          by simp [ensureValidToken, refreshTokenOp, authenticate, h, hexp,
            hrt, tokensOfAuth],
          by simp, by simp [isDocRead]⟩
      · cases hres : ctx.refreshResp with
        | error s =>
          exact ⟨some (tokensOfAuth ctx d), [.refreshCall, .authCall],
            d.idToken,
            by simp [ensureValidToken, refreshTokenOp, authenticate, h, hexp,
              hrt, hres, tokensOfAuth],
            by simp, by simp [isDocRead]⟩
        | ok r =>
          exact ⟨some (tokensOfRefresh ctx r), [.refreshCall], r.id_token,
            by simp [ensureValidToken, refreshTokenOp, authenticate, h, hexp,
              hrt, hres, tokensOfRefresh],
            by simp, by simp [isDocRead]⟩
    · exact ⟨some tk, [], tk.idToken, by simp [ensureValidToken, hexp],
        by simp, by simp [isDocRead]⟩

/-- C2: `ensureValidToken` authenticates and returns the new token when no
session exists; when the stored expiry is within the 5-minute buffer of now
it attempts a refresh, and any refresh failure falls back to a full
authenticate whose token is returned; and (provided the provider issues
tokens living at least the buffer, as Firebase's 3600-second tokens do)
every successfully returned token retains at least the buffer of validity. -/
theorem C2_ensureValidToken_spec (ctx : ApiCtx) (d : FirebaseAuthResponse)
    (hauth : ctx.authResp = .ok d)
    (hlifeA : TOKEN_REFRESH_BUFFER_MS ≤ d.expiresIn * 1000)
    (hlifeR : ∀ r, ctx.refreshResp = .ok r →
      TOKEN_REFRESH_BUFFER_MS ≤ r.expires_in * 1000) :
    (ensureValidToken ctx none
        = (some (tokensOfAuth ctx d), [.authCall], .ok d.idToken))
    ∧ (∀ tk : AuthTokens, tk.expiresAt - ctx.now ≤ TOKEN_REFRESH_BUFFER_MS →
        ApiEv.refreshCall ∈ (ensureValidToken ctx (some tk)).2.1
        ∧ ∀ e, (refreshTokenOp ctx (some tk)).2.2 = .error e →
            (ensureValidToken ctx (some tk)).2.2 = .ok d.idToken
            ∧ ApiEv.authCall ∈ (ensureValidToken ctx (some tk)).2.1)
    ∧ ∀ st st' evs tok, ensureValidToken ctx st = (st', evs, .ok tok) →
        ∃ t, st' = some t ∧ t.idToken = tok
          ∧ TOKEN_REFRESH_BUFFER_MS ≤ t.expiresAt - ctx.now := by
  refine ⟨ensureValidToken_none_ok ctx d hauth, ?_, ?_⟩
  · intro tk htk
    have hexp : ctx.now ≥ tk.expiresAt - TOKEN_REFRESH_BUFFER_MS := by omega
    by_cases hrt : tk.refreshToken = ""
    · constructor
      · simp [ensureValidToken, refreshTokenOp, authenticate, hauth, hexp, hrt]
      · intro e _
        constructor <;>
          simp [ensureValidToken, refreshTokenOp, authenticate, hauth, hexp,
            hrt, tokensOfAuth]
    · cases hres : ctx.refreshResp with
      | error s =>
        constructor
        · simp [ensureValidToken, refreshTokenOp, authenticate, hauth, hexp,
            hrt, hres]
        · intro e _
          constructor <;>
            simp [ensureValidToken, refreshTokenOp, authenticate, hauth, hexp,
              hrt, hres, tokensOfAuth]
      | ok r =>
        constructor
        · simp [ensureValidToken, refreshTokenOp, authenticate, hauth, hexp,
            hrt, hres]
        · intro e he
          rw [show (refreshTokenOp ctx (some tk)).2.2
              = .ok (tokensOfRefresh ctx r) from by
            simp [refreshTokenOp, hrt, hres]] at he
          exact absurd he (by simp)
  · intro st st' evs tok heq
    cases st with
    | none =>
      rw [ensureValidToken_none_ok ctx d hauth] at heq
      simp only [Prod.mk.injEq] at heq
      obtain ⟨h1, h2, h3⟩ := heq
      injection h3 with h4
      exact ⟨tokensOfAuth ctx d, h1.symm, h4, by
        show TOKEN_REFRESH_BUFFER_MS ≤ ctx.now + d.expiresIn * 1000 - ctx.now
        omega⟩
    | some tk =>
      by_cases hexp : ctx.now ≥ tk.expiresAt - TOKEN_REFRESH_BUFFER_MS
      · by_cases hrt : tk.refreshToken = ""
        · rw [show ensureValidToken ctx (some tk)
              = (some (tokensOfAuth ctx d), [.refreshCall, .authCall],
                  .ok d.idToken) from by
            simp [ensureValidToken, refreshTokenOp, authenticate, hauth,
              hexp, hrt, tokensOfAuth]] at heq
          simp only [Prod.mk.injEq] at heq
          obtain ⟨h1, h2, h3⟩ := heq
          injection h3 with h4
          exact ⟨tokensOfAuth ctx d, h1.symm, h4, by
            show TOKEN_REFRESH_BUFFER_MS
              ≤ ctx.now + d.expiresIn * 1000 - ctx.now
            omega⟩
        · cases hres : ctx.refreshResp with
          | error s =>
            rw [show ensureValidToken ctx (some tk)
                = (some (tokensOfAuth ctx d), [.refreshCall, .authCall],
                    .ok d.idToken) from by
              simp [ensureValidToken, refreshTokenOp, authenticate, hauth,
                hexp, hrt, hres, tokensOfAuth]] at heq
            simp only [Prod.mk.injEq] at heq
            obtain ⟨h1, h2, h3⟩ := heq
            injection h3 with h4
            exact ⟨tokensOfAuth ctx d, h1.symm, h4, by
              show TOKEN_REFRESH_BUFFER_MS
                ≤ ctx.now + d.expiresIn * 1000 - ctx.now
              omega⟩
          | ok r =>
            rw [show ensureValidToken ctx (some tk)
                = (some (tokensOfRefresh ctx r), [.refreshCall],
                    .ok r.id_token) from by
              simp [ensureValidToken, refreshTokenOp, authenticate, hexp,
                hrt, hres, tokensOfRefresh]] at heq
            simp only [Prod.mk.injEq] at heq
            obtain ⟨h1, h2, h3⟩ := heq
            injection h3 with h4
            have hr := hlifeR r hres
            exact ⟨tokensOfRefresh ctx r, h1.symm, h4, by
              show TOKEN_REFRESH_BUFFER_MS
                ≤ ctx.now + r.expires_in * 1000 - ctx.now
              omega⟩
      · rw [show ensureValidToken ctx (some tk)
            = (some tk, [], .ok tk.idToken) from by
          simp [ensureValidToken, hexp]] at heq
        simp only [Prod.mk.injEq] at heq
        obtain ⟨h1, h2, h3⟩ := heq
        injection h3 with h4
        exact ⟨tk, h1.symm, h4, by omega⟩

/-- C1: when the first document read of `fetchPoolData` returns 401 or
403, the session is invalidated exactly once, the read is retried exactly
once with the freshly authenticated token, and a non-2xx retried response
fails the call with `HaywardApiError` carrying that status; any other
non-success first response fails with `HaywardApiError` carrying its own
status without invalidation or retry. -/
theorem C1_fetchPoolData_retry (ctx : ApiCtx) (d : FirebaseAuthResponse)
    (st : Option AuthTokens) (hauth : ctx.authResp = .ok d) :
    ((ctx.readStatus1 = 401 ∨ ctx.readStatus1 = 403) →
      (fetchPoolData ctx st).2.1.count ApiEv.invalidate = 1
      ∧ (∃ t1, (fetchPoolData ctx st).2.1.filter isDocRead
          = [.docRead t1 ctx.readStatus1, .docRead d.idToken ctx.readStatus2])
      ∧ (statusOk ctx.readStatus2 = false →
          (fetchPoolData ctx st).2.2 = .error (.apiError ctx.readStatus2)))
    ∧ (statusOk ctx.readStatus1 = false → ctx.readStatus1 ≠ 401 →
        ctx.readStatus1 ≠ 403 →
        (fetchPoolData ctx st).2.2 = .error (.apiError ctx.readStatus1)
        ∧ (fetchPoolData ctx st).2.1.count ApiEv.invalidate = 0
        ∧ ((fetchPoolData ctx st).2.1.filter isDocRead).length = 1) := by
  obtain ⟨st1, evs1, tok, he1, hinv, hfil⟩ := ensureValidToken_ok ctx d hauth st
  have hc1 : evs1.count ApiEv.invalidate = 0 := List.count_eq_zero.mpr hinv
  have he2 := ensureValidToken_none_ok ctx d hauth
  constructor
  · intro h401
    have hfp : fetchPoolData ctx st
        = (some (tokensOfAuth ctx d),
            (evs1 ++ [.docRead tok ctx.readStatus1]) ++ [.invalidate]
              ++ [.authCall] ++ [.docRead d.idToken ctx.readStatus2],
            if statusOk ctx.readStatus2 then
              .ok (flattenObject (parseFields ctx.doc) "")
            else .error (.apiError ctx.readStatus2)) := by
      rw [fetchPoolData, he1]
      simp only [he2, if_pos h401]
      by_cases hok2 : statusOk ctx.readStatus2 <;> simp [hok2]
    rw [hfp]
    refine ⟨?_, ⟨tok, ?_⟩, ?_⟩
    · simp [List.count_append, hc1]
    · simp [List.filter_append, hfil, isDocRead]
    · intro hok2
      simp [hok2]
  · intro hns h1 h2
    have hnot : ¬(ctx.readStatus1 = 401 ∨ ctx.readStatus1 = 403) := by
      tauto
    have hfp : fetchPoolData ctx st
        = (st1, evs1 ++ [.docRead tok ctx.readStatus1],
            .error (.apiError ctx.readStatus1)) := by
      rw [fetchPoolData, he1]
      simp only [if_neg hnot]
      simp [hns]
    rw [hfp]
    refine ⟨rfl, ?_, ?_⟩
    · simp [List.count_append, hc1]
    · simp [List.filter_append, hfil, isDocRead]

/-! ## Aquascenic device driver: mapping tables and the poll cycle -/

/-- Decimal value of digit characters with an optional fraction part, used
by the JS `Number(...)` string coercion model. -/
def parseDecimal (l : List Char) : Option ℚ :=
  let intPart := l.takeWhile Char.isDigit
  let rest := l.dropWhile Char.isDigit
  match rest with
  | [] => if intPart.isEmpty then none else some (digitsToNat intPart : ℚ)
  | '.' :: frac =>
    if frac.all Char.isDigit && !(intPart.isEmpty && frac.isEmpty) then
      some ((digitsToNat intPart : ℚ)
        + (digitsToNat frac : ℚ) / (10 ^ frac.length))
    else none
  | _ => none

/-- JS `Number(string)` at the string shapes occurring here: trimmed empty
string is `0`, an optionally signed decimal numeral is its value, anything
else is NaN (`none`). -/
def jsStringToNumber (s : String) : Option ℚ :=
  let l := ((s.data.dropWhile Char.isWhitespace).reverse.dropWhile
    Char.isWhitespace).reverse
  match l with
  | [] => some 0
  | '-' :: rest => (parseDecimal rest).map Neg.neg
  | '+' :: rest => parseDecimal rest
  | _ => parseDecimal l

/-- JS `ToNumber` coercion (`none` is NaN). -/
def jsToNumber : JSVal → Option ℚ
  | .num q => some q
  | .bool b => some (if b then 1 else 0)
  | .null => some 0
  | .str s => jsStringToNumber s
  | _ => none

/-- JS `Number(v)` as a value. -/
def jsNumber (v : JSVal) : JSVal :=
  match jsToNumber v with
  | some q => .num q
  | none => .nan

/-- JS `v / c` with a nonzero numeric literal divisor. -/
def jsDiv (v : JSVal) (c : ℚ) : JSVal :=
  match jsToNumber v with
  | some q => .num (q / c)
  | none => .nan

/-- JS `Math.round(v)`: round half toward positive infinity. -/
def jsMathRound (v : JSVal) : JSVal :=
  match jsToNumber v with
  | some q => .num (Int.floor (q + 1/2) : ℚ)
  | none => .nan

/-- JS `Boolean(v)`. -/
def jsBoolean (v : JSVal) : JSVal :=
  .bool (truthy v)

/-- A row of the read-only mapping table. -/
structure CapabilityMapping where
  firestoreKey : String
  capability : String
  transform : Option (JSVal → JSVal)

/-- A row of the settable mapping table: adds the nested dot-path used for
writes and an optional inverse transform. -/
structure SettableCapabilityMapping extends CapabilityMapping where
  firestorePath : String
  reverseTransform : Option (JSVal → JSVal)

/-- The `CAPABILITY_MAP` table of read-only capabilities (the eight rows of
`device.ts`, with their arrow-function transforms). -/
def CAPABILITY_MAP : List CapabilityMapping :=
  [ { firestoreKey := "main_temperature", capability := "measure_temperature",
      transform := none },
    { firestoreKey := "modules_ph_current", capability := "measure_ph",
      transform := some fun v => jsDiv v 100 },
    { firestoreKey := "modules_rx_current", capability := "measure_orp",
      transform := some fun v => jsNumber v },
    { firestoreKey := "hidro_current", capability := "measure_salt_level",
      transform := some fun v => jsDiv v 10 },
    { firestoreKey := "hidro_cellTotalTime",
      capability := "measure_salt_cell_hours",
      transform := some fun v => jsMathRound (jsDiv v 3600) },
    { firestoreKey := "filtration_status", capability := "status_filtration",
      transform := some jsBoolean },
    { firestoreKey := "hidro_is_electrolysis",
      capability := "status_electrolysis",
      transform := some jsBoolean },
    { firestoreKey := "main_RSSI", capability := "measure_wifi_signal",
      transform := none } ]

/-- `FILTRATION_MODE_MAP`: remote code to local label. -/
def FILTRATION_MODE_MAP (v : Int) : Option String :=
  if v = 0 then some "auto"
  else if v = 1 then some "manual"
  else if v = 2 then some "smart"
  else none

/-- `FILTRATION_MODE_REVERSE`: local label to remote code. -/
def FILTRATION_MODE_REVERSE (s : String) : Option Int :=
  if s = "auto" then some 0
  else if s = "manual" then some 1
  else if s = "smart" then some 2
  else none

/-- Forward transform of the `filtration_mode` row:
the lookup with default `'auto'` (every stored label is truthy, so the JS
or-default coincides with the missing-key default). -/
def filtrationModeForward (v : Int) : String :=
  (FILTRATION_MODE_MAP v).getD "auto"

/-- Reverse transform of the `filtration_mode` row: lookup with
nullish-coalescing default `0`. -/
def filtrationModeReverse (s : String) : Int :=
  (FILTRATION_MODE_REVERSE s).getD 0

/-- `TRIGGER_MAP`: capability to (rising-edge card, falling-edge card). -/
def TRIGGER_MAP (cap : String) : Option (String × String) :=
  if cap = "status_filtration" then
    some ("filtration_started", "filtration_stopped")
  else if cap = "chlorination_shock" then
    some ("chlorination_shock_started", "chlorination_shock_stopped")
  else if cap = "lighting_onoff" then
    some ("light_turned_on", "light_turned_off")
  else none

/-- Observable host-side actions of a poll cycle, in order. -/
inductive HostEv where
  | fired (cardId : String)
  | setCap (capability : String) (value : JSVal)
  | addedCap (capability : String)
  | regListener (capability : String)

/-- The device-host state visible to the driver: existing capabilities,
their stored values (a capability never set reads as JS `null`), the
registered-listener set, and the ordered action log. -/
structure DeviceState where
  caps : List String
  capValues : List (String × JSVal)
  listeners : List String
  log : List HostEv

/-- `this.getCapabilityValue(cap)`: `none` models the host's `null` for a
capability that was never set. -/
def getCapabilityValue (d : DeviceState) (cap : String) : Option JSVal :=
  lookupKey d.capValues cap

/-- `this.setCapabilityValue(cap, v)`. -/
def setCapabilityValue (d : DeviceState) (cap : String) (v : JSVal) :
    DeviceState :=
  { d with capValues := recordSet d.capValues cap v
           log := d.log ++ [.setCap cap v] }

/-- `AquascenicDevice.checkAndFireTrigger`: no trigger binding, a `null`
(never set) old value, or an unchanged value fire nothing; otherwise fire
the rising card when the new value is truthy, else the falling card. -/
def checkAndFireTrigger (d : DeviceState) (cap : String) (newValue : JSVal) :
    DeviceState :=
  match TRIGGER_MAP cap with
  | none => d
  | some tr =>
    match getCapabilityValue d cap with
    | none => d
    | some oldValue =>
      if jsStrictEq oldValue newValue then d
      else { d with log :=
        d.log ++ [.fired (if truthy newValue then tr.1 else tr.2)] }

/-- `rawValue === undefined || rawValue === null`. -/
def isNullish : JSVal → Bool
  | .undefined => true
  | .null => true
  | _ => false

/-- Apply a mapping's forward transform (identity when absent). -/
def applyTransform (m : CapabilityMapping) (v : JSVal) : JSVal :=
  match m.transform with
  | some f => f v
  | none => v

/-- One iteration of the `CAPABILITY_MAP` loop of `pollData`: skip when the
flat key is absent or null, else transform, fire the bound edge trigger,
and commit the value (when the capability exists on the device). -/
def processReadMapping (d : DeviceState) (m : CapabilityMapping)
    (data : List (String × JSVal)) : DeviceState :=
  let rawValue := lookupJS data m.firestoreKey
  if isNullish rawValue then d
  else
    let value := applyTransform m rawValue
    if m.capability ∈ d.caps then
      setCapabilityValue (checkAndFireTrigger d m.capability value)
        m.capability value
    else d

/-- The `CAPABILITY_MAP` loop of `pollData`. -/
def pollReadMappings (d : DeviceState) (ms : List CapabilityMapping)
    (data : List (String × JSVal)) : DeviceState :=
  ms.foldl (fun s m => processReadMapping s m data) d

/-- `this.addCapability(cap)`. -/
def addCapability (d : DeviceState) (cap : String) : DeviceState :=
  { d with caps := d.caps ++ [cap], log := d.log ++ [.addedCap cap] }

/-- Register the settable write listener once and record it in the
registered-listener set. -/
def registerListener (d : DeviceState) (cap : String) : DeviceState :=
  { d with listeners := d.listeners ++ [cap]
           log := d.log ++ [.regListener cap] }

/-- One iteration of the `SETTABLE_CAPABILITY_MAP` loop of `pollData`:
skip when absent or null, else lazily provision the capability, register
the write listener once, transform, fire the bound trigger, commit. -/
def processSettableMapping (d : DeviceState) (m : SettableCapabilityMapping)
    (data : List (String × JSVal)) : DeviceState :=
  let rawValue := lookupJS data m.firestoreKey
  if isNullish rawValue then d
  else
    let d1 := if m.capability ∈ d.caps then d else addCapability d m.capability
    let d2 := if m.capability ∈ d1.listeners then d1
      else registerListener d1 m.capability
    let value := applyTransform m.toCapabilityMapping rawValue
    setCapabilityValue (checkAndFireTrigger d2 m.capability value)
      m.capability value

/-- Observable effects of one invocation of a settable capability's write
listener. -/
inductive ListenerEv where
  | apiWrite (path : String) (value : JSVal)
  | schedRepoll (delayMs : Int)

/-- The mapping's inverse transform (identity when absent). -/
def applyReverseTransform (m : SettableCapabilityMapping) (v : JSVal) : JSVal :=
  match m.reverseTransform with
  | some f => f v
  | none => v

/-- The write listener registered by
`AquascenicDevice.registerSettableListener`: throw when no API client is
connected, else apply the inverse transform, write through the Pool Client
at the mapping's nested dot-path, and schedule one re-poll after 3000 ms. -/
def settableListener (m : SettableCapabilityMapping) (apiConnected : Bool)
    (value : JSVal) : Except String (List ListenerEv) :=
  if !apiConnected then .error "Not connected"
  else
    .ok [.apiWrite m.firestorePath (applyReverseTransform m value),
         .schedRepoll 3000]

/-- Is a listener effect the Pool Client write? -/
def isApiWrite : ListenerEv → Bool
  | .apiWrite _ _ => true
  | _ => false

/-- Is a listener effect the delayed re-poll? -/
def isSchedRepoll : ListenerEv → Bool
  | .schedRepoll _ => true
  | _ => false

/-- C4: for a trigger-bound capability in a poll cycle, a stored value
that is defined and differs from the newly decoded boolean value fires
exactly the bound edge event (rising when the new value is `true`, falling
when `false`) before the new value is committed, while an undefined stored
value (capability never set) commits the value without firing anything. -/
theorem C4_trigger_edge (d : DeviceState) (m : CapabilityMapping)
    (data : List (String × JSVal)) (tr : String × String) (nb : Bool)
    (htr : TRIGGER_MAP m.capability = some tr)
    (hraw : isNullish (lookupJS data m.firestoreKey) = false)
    (hcap : m.capability ∈ d.caps)
    (hval : applyTransform m (lookupJS data m.firestoreKey) = .bool nb) :
    (∀ ob : Bool, getCapabilityValue d m.capability = some (.bool ob) →
      ob ≠ nb →
      (processReadMapping d m data).log
        = d.log ++ [.fired (if nb then tr.1 else tr.2),
                    .setCap m.capability (.bool nb)]
      ∧ (processReadMapping d m data).capValues
        = recordSet d.capValues m.capability (.bool nb))
    ∧ (getCapabilityValue d m.capability = none →
      (processReadMapping d m data).log
        = d.log ++ [.setCap m.capability (.bool nb)]
      ∧ (processReadMapping d m data).capValues
        = recordSet d.capValues m.capability (.bool nb)) := by
  constructor
  · intro ob hold hne
    have hne' : jsStrictEq (JSVal.bool ob) (JSVal.bool nb) = false := by
      simp [jsStrictEq]
      exact hne
    constructor
    · simp [processReadMapping, hraw, hval, hcap, checkAndFireTrigger, htr,
        hold, hne', setCapabilityValue, truthy]
    · simp [processReadMapping, hraw, hval, hcap, checkAndFireTrigger, htr,
        hold, hne', setCapabilityValue]
  · intro hold
    constructor
    · simp [processReadMapping, hraw, hval, hcap, checkAndFireTrigger, htr,
        hold, setCapabilityValue]
    · simp [processReadMapping, hraw, hval, hcap, checkAndFireTrigger, htr,
        hold, setCapabilityValue]

/-- Find the read-only mapping table row for a flat key. -/
def findMapping (key : String) : Option CapabilityMapping :=
  CAPABILITY_MAP.find? fun m => m.firestoreKey == key

/-- C5: the forward transforms of the read-only mapping table compute
raw/100 for `modules_ph_current` (740 ↦ 7.4 = 37/5), raw/10 for
`hidro_current` (320 ↦ 32) and the raw seconds divided by 3600 rounded to
the nearest integer for `hidro_cellTotalTime` (7260 ↦ 2). -/
theorem C5_numeric_transforms :
    (findMapping "modules_ph_current").map
        (fun m => applyTransform m (.num 740)) = some (.num (37/5))
    ∧ (findMapping "hidro_current").map
        (fun m => applyTransform m (.num 320)) = some (.num 32)
    ∧ (findMapping "hidro_cellTotalTime").map
        (fun m => applyTransform m (.num 7260)) = some (.num 2) := by
  have hfloor : (⌊(7260 : ℚ) / 3600 + 1 / 2⌋ : ℤ) = 2 := by
    rw [Int.floor_eq_iff]
    constructor <;> norm_num
  refine ⟨?_, ?_, ?_⟩
  · simp [findMapping, CAPABILITY_MAP, applyTransform, jsDiv, jsToNumber]
    norm_num
  · simp [findMapping, CAPABILITY_MAP, applyTransform, jsDiv, jsToNumber]
    norm_num
  · simp [findMapping, CAPABILITY_MAP, applyTransform, jsDiv, jsMathRound,
      jsToNumber, hfloor]
    norm_num [hfloor]

/-- C6: the filtration-mode enumeration transforms are total in both
directions: every remote code outside the lookup table decodes to the
default label `"auto"`, and every label outside the reverse table encodes
to the default code `0`; neither direction can fail. -/
theorem C6_enumeration_fallback :
    (∀ v : Int, v ≠ 0 → v ≠ 1 → v ≠ 2 → filtrationModeForward v = "auto")
    ∧ (∀ s : String, s ≠ "auto" → s ≠ "manual" → s ≠ "smart" →
        filtrationModeReverse s = 0) := by
  constructor
  · intro v h0 h1 h2
    simp [filtrationModeForward, FILTRATION_MODE_MAP, h0, h1, h2]
  · intro s h0 h1 h2
    simp [filtrationModeReverse, FILTRATION_MODE_REVERSE, h0, h1, h2]

/-- Witness for C6 at the spec's concrete inputs: the unmapped code `9`
decodes to `"auto"` and an unmapped label encodes to `0`. -/
theorem C6_enumeration_fallback_witness :
    filtrationModeForward 9 = "auto" ∧ filtrationModeReverse "slow" = 0 :=
  ⟨(C6_enumeration_fallback).1 9 (by decide) (by decide) (by decide),
   (C6_enumeration_fallback).2 "slow" (by decide) (by decide) (by decide)⟩

/-- C7: a mapping whose flat key is absent from the fetched state leaves
the device state entirely unchanged (read-only and settable loops alike),
and dropping such a mapping from a poll cycle does not change the cycle's
result — every other mapping is still processed identically. -/
theorem C7_absent_key_skips (d : DeviceState) (data : List (String × JSVal)) :
    (∀ m : CapabilityMapping, lookupKey data m.firestoreKey = none →
      processReadMapping d m data = d)
    ∧ (∀ sm : SettableCapabilityMapping,
        lookupKey data sm.firestoreKey = none →
        processSettableMapping d sm data = d)
    ∧ (∀ (ms₁ ms₂ : List CapabilityMapping) (m : CapabilityMapping),
        lookupKey data m.firestoreKey = none →
        pollReadMappings d (ms₁ ++ m :: ms₂) data
          = pollReadMappings d (ms₁ ++ ms₂) data) := by
  have hread : ∀ (d' : DeviceState) (m : CapabilityMapping),
      lookupKey data m.firestoreKey = none →
      processReadMapping d' m data = d' := by
    intro d' m hm
    simp [processReadMapping, lookupJS, hm, isNullish]
  refine ⟨hread d, ?_, ?_⟩
  · intro sm hm
    simp [processSettableMapping, lookupJS, hm, isNullish]
  · intro ms₁ ms₂ m hm
    simp only [pollReadMappings, List.foldl_append, List.foldl_cons]
    rw [hread _ m hm]

/-- Witness for C7 at a concrete state and mapping: the key
`modules_io_level` is absent from a one-key fetched state, so the cycle
leaves the state unchanged. -/
theorem C7_absent_key_skips_witness :
    processReadMapping
        ⟨["status_ionization"], [("status_ionization", .num 3)], [], []⟩
        ⟨"modules_io_level", "status_ionization", none⟩
        [("main_temperature", .num 28)]
      = ⟨["status_ionization"], [("status_ionization", .num 3)], [], []⟩ :=
  (C7_absent_key_skips
      ⟨["status_ionization"], [("status_ionization", .num 3)], [], []⟩
      [("main_temperature", .num 28)]).1
    ⟨"modules_io_level", "status_ionization", none⟩
    (by simp [lookupKey])

/-- C8: a settable mapping's write listener applies the inverse
transform (or passes the value unchanged), issues exactly one Pool Client
write at the mapping's nested dot-path, and then schedules exactly one
one-shot re-poll with the fixed 3000 ms delay — in that order. -/
theorem C8_settable_listener (m : SettableCapabilityMapping) (value : JSVal) :
    settableListener m true value
      = .ok [.apiWrite m.firestorePath (applyReverseTransform m value),
             .schedRepoll 3000]
    ∧ ∀ evs, settableListener m true value = .ok evs →
        evs.countP isApiWrite = 1 ∧ evs.countP isSchedRepoll = 1
        ∧ evs.length = 2 := by
  constructor
  · simp [settableListener]
  · intro evs hevs
    rw [show settableListener m true value
        = .ok [.apiWrite m.firestorePath (applyReverseTransform m value),
               .schedRepoll 3000] from by simp [settableListener]] at hevs
    injection hevs with h
    subst h
    refine ⟨?_, ?_, rfl⟩ <;>
      simp [List.countP, List.countP.go, isApiWrite, isSchedRepoll]

/-- C9: the typed-value decoder `extractValue` is a total Lean function
(hence terminating and exception-free on every input); a value with an
unrecognized tag decodes to `undefined`, and a list variant whose `values`
field is absent decodes to the empty list. -/
theorem C9_extractValue_total :
    extractValue FirestoreValue.other = JSVal.undefined
    ∧ extractValue (FirestoreValue.arrayValue none) = JSVal.arr []
    ∧ ∀ v : FirestoreValue, ∃ r : JSVal, extractValue v = r := by
  refine ⟨?_, ?_, fun v => ⟨extractValue v, rfl⟩⟩
  · simp [extractValue]
  · simp [extractValue]

/-- C10: a mapped flat key that is present but holds `null` (the decoding
of the null variant) is treated exactly like an absent key by the poll
cycle: the whole device state — stored values, capability set, listener
set and action log — is left unchanged by both the read-only and the
settable loop. -/
theorem C10_null_is_skip (d : DeviceState) (data : List (String × JSVal)) :
    extractValue FirestoreValue.nullValue = JSVal.null
    ∧ (∀ m : CapabilityMapping, lookupJS data m.firestoreKey = .null →
        processReadMapping d m data = d)
    ∧ (∀ sm : SettableCapabilityMapping,
        lookupJS data sm.firestoreKey = .null →
        processSettableMapping d sm data = d) := by
  refine ⟨by simp [extractValue], ?_, ?_⟩
  · intro m hm
    simp [processReadMapping, hm, isNullish]
  · intro sm hm
    simp [processSettableMapping, hm, isNullish]

/-! ## Counterexample for the unrestricted C3 round-trip, and witnesses -/

/-- C3 counterexample: the nested map with the single empty-string key
(empty keys contain no separator) and a scalar-leaved sub-map does not
survive the round trip — the falsy empty prefix makes `flattenObject`
emit the inner keys without any separator, so unflattening loses the
outer level. -/
theorem C3_flatten_roundtrip_counterexample :
    unflatten (flattenObject [("", .obj [("a", .num 1)])] "")
      ≠ [("", .obj [("a", .num 1)])] := by
  rw [show unflatten (flattenObject [("", JSVal.obj [("a", JSVal.num 1)])] "")
      = [("a", JSVal.num 1)] from by
    simp [flattenObject, flattenGo, objAssign, recordSet, unflatten,
      insertEntry, insertAt, splitKey, splitSegs, joinKey]]
  simp

/-- A concrete well-formed nested pool document used as the C3 witness. -/
def exFieldsC3 : List (String × JSVal) :=
  [("main", .obj [("temperature", .num 28), ("RSSI", .num (-60))]),
   ("present", .bool true)]

/-- Witness for C3 (amended): the concrete two-level document is
well-formed and survives the flatten/unflatten round trip. -/
theorem C3_roundtrip_witness :
    goodFields exFieldsC3 = true
    ∧ unflatten (flattenObject exFieldsC3 "") = exFieldsC3 :=
  ⟨by simp [exFieldsC3, goodFields, goodVal, goodKey],
   flatten_unflatten_roundtrip exFieldsC3
     (by simp [exFieldsC3, goodFields, goodVal, goodKey])⟩

/-- The authentication response used by the C1/C2 witnesses: a Firebase
token that lives 3600 seconds. -/
def authRespW : FirebaseAuthResponse :=
  { idToken := "tokA", refreshToken := "refA", expiresIn := 3600,
    localId := "uid" }

/-- Network oracle for the C1 witness: both document reads return 401 and
the refresh endpoint fails. -/
def ctxC1 : ApiCtx :=
  { now := 0, authResp := .ok authRespW, refreshResp := .error 400,
    readStatus1 := 401, readStatus2 := 401, doc := [] }

/-- Witness for C1: with a first and second read status of 401, the run
invalidates once, reads twice (the retry bearing the fresh token), and
fails with `HaywardApiError` status 401. -/
theorem C1_fetchPoolData_retry_witness :
    (fetchPoolData ctxC1 none).2.1.count ApiEv.invalidate = 1
    ∧ (∃ t1, (fetchPoolData ctxC1 none).2.1.filter isDocRead
        = [.docRead t1 401, .docRead "tokA" 401])
    ∧ (fetchPoolData ctxC1 none).2.2 = .error (.apiError 401) := by
  have h := (C1_fetchPoolData_retry ctxC1 authRespW none rfl).1 (Or.inl rfl)
  exact ⟨h.1, h.2.1, h.2.2 rfl⟩

/-- Network oracle for the C2 witness: the refresh endpoint fails with
HTTP 400, authentication succeeds. -/
def ctxC2 : ApiCtx :=
  { now := 0, authResp := .ok authRespW, refreshResp := .error 400,
    readStatus1 := 200, readStatus2 := 200, doc := [] }

/-- A stored session whose expiry (200 seconds from now) is within the
5-minute buffer, used by the C2 witness. -/
def tkC2 : AuthTokens :=
  { idToken := "old", refreshToken := "refOld", expiresAt := 200000,
    localId := "uid" }

/-- Witness for C2: with no session the call authenticates and returns the
new token; with a near-expiry session and a failing refresh it attempts
the refresh and returns the token from the authenticate fallback. -/
theorem C2_ensureValidToken_spec_witness :
    ensureValidToken ctxC2 none
      = (some (tokensOfAuth ctxC2 authRespW), [.authCall], .ok "tokA")
    ∧ ApiEv.refreshCall ∈ (ensureValidToken ctxC2 (some tkC2)).2.1
    ∧ (ensureValidToken ctxC2 (some tkC2)).2.2 = .ok "tokA" := by
  have h := C2_ensureValidToken_spec ctxC2 authRespW rfl (by decide)
    (fun r hr => nomatch hr)
  have hb := h.2.1 tkC2 (by decide)
  have hfb := hb.2 (.authError (some 400))
    (by simp [refreshTokenOp, tkC2, ctxC2])
  exact ⟨h.1, hb.1, hfb.1⟩

/-- The `filtration_status` row of the read-only table, used by the C4
witness. -/
def mC4 : CapabilityMapping :=
  { firestoreKey := "filtration_status", capability := "status_filtration",
    transform := some jsBoolean }

/-- A device state storing `false` for the trigger-bound filtration
capability, used by the C4 witness. -/
def dC4 : DeviceState :=
  { caps := ["status_filtration"],
    capValues := [("status_filtration", .bool false)],
    listeners := [], log := [] }

/-- Witness for C4: a stored `false` and a decoded `true` fire the rising
card `filtration_started` once, before the commit of the new value. -/
theorem C4_trigger_edge_witness :
    (processReadMapping dC4 mC4 [("filtration_status", .num 1)]).log
      = dC4.log ++ [.fired "filtration_started",
                    .setCap "status_filtration" (.bool true)]
    ∧ (processReadMapping dC4 mC4 [("filtration_status", .num 1)]).capValues
      = recordSet dC4.capValues "status_filtration" (.bool true) := by
  have h := (C4_trigger_edge dC4 mC4 [("filtration_status", .num 1)]
    ("filtration_started", "filtration_stopped") true rfl
    (by simp [lookupJS, lookupKey, isNullish, mC4])
    (by simp [mC4, dC4])
    (by simp [lookupJS, lookupKey, applyTransform, mC4, jsBoolean, truthy])).1
    false (by simp [getCapabilityValue, dC4, mC4, lookupKey]) (by decide)
  simpa using h

/-- The `hidro.cover` row of the settable table, used by the C8 witness. -/
def mC8 : SettableCapabilityMapping :=
  { firestoreKey := "hidro_cover", capability := "cover_onoff",
    transform := some jsBoolean, firestorePath := "hidro.cover",
    reverseTransform := some fun v => if truthy v then .num 1 else .num 0 }

/-- Witness for C8: switching the cover on writes `1` at the nested path
`hidro.cover` and schedules one 3000 ms re-poll. -/
theorem C8_settable_listener_witness :
    settableListener mC8 true (.bool true)
      = .ok [.apiWrite "hidro.cover"
               (applyReverseTransform mC8 (.bool true)),
             .schedRepoll 3000]
    ∧ applyReverseTransform mC8 (.bool true) = .num 1 :=
  ⟨(C8_settable_listener mC8 (.bool true)).1,
   by simp [applyReverseTransform, mC8, truthy]⟩

/-- A device state used by the C10 witness. -/
def dC10 : DeviceState :=
  { caps := ["measure_ph"], capValues := [("measure_ph", .num (37/5))],
    listeners := [], log := [] }

/-- Witness for C10: a fetched state carrying `null` under a mapped key
leaves the device state untouched. -/
theorem C10_null_is_skip_witness :
    processReadMapping dC10
        ⟨"modules_ph_current", "measure_ph", none⟩
        [("modules_ph_current", .null)]
      = dC10 :=
  (C10_null_is_skip dC10 [("modules_ph_current", .null)]).2.1
    ⟨"modules_ph_current", "measure_ph", none⟩
    (by simp [lookupJS, lookupKey])

end Vistapool
